import Mathlib

/-!
Shallow embedding of the picograd scalar reverse-mode autodiff engine
(`src/engine.rs`).

Nodes live in an arena (a list of records); a node id is its index in the
arena and stands for the `Rc` pointer identity of a `Value`.  The `f64`
fields `data` and `grad` are modelled as rationals: every computation the
claims exercise stays inside numbers that `f64` represents exactly, away
from NaN and infinities.  The two primitives whose real-number semantics
is transcendental, `f64::powf` and `f64::tanh`, are parameters of the
embedding; a concrete rational stand-in `ratPow` is supplied for closed
executions, and every closed execution below only applies it at points
where `powf` is exact (integer exponents on small integers).

The `HashSet<Value>` used by `backward` hashes and compares the full
mutable content of a node (`data`, `grad`, `label`, `_op`, `_prev`,
recursively), per the `Hash` and `PartialEq` impls of `_Value`.  A lookup
in the set finds a stored element exactly when the hash of the stored
element taken at insertion time equals the hash of the current content of
the query, and the stored element currently compares equal to the query.
We model this with snapshots: the visited list stores, for each inserted
node, its id together with the whole arena at insertion time, and
membership demands deep content equality both against the snapshot (the
hash computed at insertion) and against the current arena (the `Eq` probe
made at lookup).  Hash collisions between unequal contents are idealized
away.

`RefCell` borrow panics are modelled by `Option`: the propagate rules of
`add` and `mul` take `borrow_mut` on both operands, so they abort with
`none` when the two operand ids coincide (or equal the node itself); the
`pow` rule takes `borrow_mut` on the base and `borrow` on the exponent;
the `tanh` rule takes `borrow_mut` on its single operand.  Recursion in
`_backward` is modelled with explicit fuel; `none` from fuel exhaustion
never occurs in the runs below, which always carry ample fuel.
-/

namespace Picograd

/-- Tags for the stored propagate function pointers of `_Value.propagate`:
one per closure in the source (`add`, `mul`, `Value::pow`, `Value::tanh`). -/
inductive PTag
  | padd
  | pmul
  | ppow
  | ptanh
deriving DecidableEq, Repr

/-- Mirror of `_Value`: `data`, `grad`, `label`, `_op`, `_prev` (operand ids),
`propagate`.  Field order of the comparisons below follows the `PartialEq`
and `Hash` impls, which cover `data`, `grad`, `label`, `_op`, `_prev` and
omit `propagate`. -/
structure VNode where
  data : ℚ
  grad : ℚ
  label : Option String
  op : Option String
  prev : List Nat
  prop : Option PTag
deriving DecidableEq, Repr

/-- The arena of allocated nodes; a `Value` is an index into it. -/
abbrev State := List VNode

/-- Placeholder node used by total lookups; never reached on ids that come
from the constructors, since every constructor returns an in-range id. -/
def dflt : VNode := { data := 0, grad := 0, label := none, op := none, prev := [], prop := none }

/-- Dereference a node id (`value.borrow()`). -/
def nodeAt (s : State) (i : Nat) : VNode := s.getD i dflt

/-- `value.borrow().data`. -/
def dataOf (s : State) (i : Nat) : ℚ := (nodeAt s i).data

/-- `value.borrow().grad`. -/
def gradOf (s : State) (i : Nat) : ℚ := (nodeAt s i).grad

/-- Apply a field update to the node at index `i` (`value.borrow_mut()`). -/
def mapAt (s : State) (i : Nat) (f : VNode → VNode) : State :=
  s.set i (f (nodeAt s i))

/-- `grad += d` at index `i`. -/
def bumpGrad (s : State) (i : Nat) (d : ℚ) : State :=
  mapAt s i fun n => { n with grad := n.grad + d }

/-- `impl<T: Into<f64>> From<T> for Value`: a fresh leaf node with the given
value, gradient `0`, no label, no op, no operands, no propagate function. -/
def leaf (s : State) (x : ℚ) : State :=
  s ++ [{ data := x, grad := 0, label := none, op := none, prev := [], prop := none }]

/-- `fn add`: forward value is the sum of the operand values; records op
`"+"`, operands `[a, b]` and the add propagate closure. -/
def add (s : State) (a b : Nat) : State :=
  s ++ [{ data := dataOf s a + dataOf s b, grad := 0, label := none,
          op := some "+", prev := [a, b], prop := some PTag.padd }]

/-- `fn mul`: forward value is the product of the operand values; records op
`"*"`, operands `[a, b]` and the mul propagate closure. -/
def mul (s : State) (a b : Nat) : State :=
  s ++ [{ data := dataOf s a * dataOf s b, grad := 0, label := none,
          op := some "*", prev := [a, b], prop := some PTag.pmul }]

/-- `Value::pow`: forward value is `powf` of the operand values, with `powf`
a parameter `fpow` of the embedding; records op `"^"`, operands `[a, b]`
and the pow propagate closure. -/
def pow (fpow : ℚ → ℚ → ℚ) (s : State) (a b : Nat) : State :=
  s ++ [{ data := fpow (dataOf s a) (dataOf s b), grad := 0, label := none,
          op := some "^", prev := [a, b], prop := some PTag.ppow }]

/-- `Value::tanh`: forward value is `tanh` of the operand value, with `tanh`
a parameter `ftanh` of the embedding; records op `"tanh"`, operand `[a]`
and the tanh propagate closure. -/
def tanh (ftanh : ℚ → ℚ) (s : State) (a : Nat) : State :=
  s ++ [{ data := ftanh (dataOf s a), grad := 0, label := none,
          op := some "tanh", prev := [a], prop := some PTag.ptanh }]

/-- `impl Neg`: `mul(self, &Value::from(-1))`.  The `-1` leaf is allocated
first (argument evaluation), then the product node. -/
def neg (s : State) (a : Nat) : State :=
  mul (leaf s (-1)) a s.length

/-- `impl Sub`: `add(self, &(-other))`. -/
def sub (s : State) (a b : Nat) : State :=
  add (neg s b) a (s.length + 1)

/-- `impl Sum for Value`: starts from `Value::from(0.0)` and folds `+` over
the sequence, allocating one add node per element. -/
def sumOf (s : State) (ids : List Nat) : State :=
  ids.foldl (fun st i => add st (st.length - 1) i) (leaf s 0)

/-- `Value::add_label`: sets the label, returns the same node identity. -/
def add_label (s : State) (i : Nat) (t : String) : State :=
  mapAt s i fun n => { n with label := some t }

/-- `Value::zero_grad`: sets the gradient to `0`. -/
def zero_grad (s : State) (i : Nat) : State :=
  mapAt s i fun n => { n with grad := 0 }

/-- `Value::adjust`: `data += factor * grad`. -/
def adjust (s : State) (i : Nat) (factor : ℚ) : State :=
  mapAt s i fun n => { n with data := n.data + factor * n.grad }

/-- Deep content equality of node `i` in arena `s1` against node `j` in
arena `s2`, mirroring the recursive `PartialEq`/`Hash` of `_Value` over
the fields `data`, `grad`, `label`, `_op`, `_prev` (and not `propagate`).
The conjuncts are listed in a different order than the source compares
them; conjunction order does not change the equality being computed.
The two trees are walked in lockstep through worklists, one fuel unit per
node pair; fuel exhaustion returns `false` and never occurs at the fuel
bounds used below, since the source graphs are acyclic and small. -/
def deq (s1 s2 : State) : Nat → List Nat → List Nat → Bool
  | 0, _, _ => false
  | _ + 1, [], [] => true
  | f + 1, i :: t1, j :: t2 =>
    decide ((nodeAt s1 i).op = (nodeAt s2 j).op) &&
    decide ((nodeAt s1 i).label = (nodeAt s2 j).label) &&
    decide ((nodeAt s1 i).grad = (nodeAt s2 j).grad) &&
    decide ((nodeAt s1 i).data = (nodeAt s2 j).data) &&
    decide ((nodeAt s1 i).prev.length = (nodeAt s2 j).prev.length) &&
    deq s1 s2 f ((nodeAt s1 i).prev ++ t1) ((nodeAt s2 j).prev ++ t2)
  | _ + 1, _, _ => false

/-- Fuel for deep content comparisons: ample for every graph below. -/
def deepFuel : Nat := 32

/-- `visited.contains(&value)`: an entry is found when the hash stored at
insertion time (the deep content of the entry inside its snapshot arena)
matches the hash of the current content of the query, and the entry
currently compares equal to the query. -/
def containsV (s : State) (v : List (Nat × State)) (i : Nat) : Bool :=
  v.any fun e =>
    deq e.2 s deepFuel [e.1] [i] && deq s s deepFuel [e.1] [i]

/-- One invocation of the stored propagate closure of node `i`
(`propagate_fn(&borrowed_value)`), or `none` for a `RefCell` borrow panic
or an out-of-range `_prev` index panic. -/
def runProp (fpow : ℚ → ℚ → ℚ) (s : State) (i : Nat) : Option State :=
  match (nodeAt s i).prop with
  | none => some s
  | some PTag.padd =>
    match (nodeAt s i).prev with
    | p0 :: p1 :: _ =>
      if p0 = i ∨ p1 = i ∨ p1 = p0 then none
      else
        some (bumpGrad (bumpGrad s p0 (nodeAt s i).grad) p1 (nodeAt s i).grad)
    | _ => none
  | some PTag.pmul =>
    match (nodeAt s i).prev with
    | p0 :: p1 :: _ =>
      if p0 = i ∨ p1 = i ∨ p1 = p0 then none
      else
        let s1 := bumpGrad s p0 (dataOf s p1 * (nodeAt s i).grad)
        some (bumpGrad s1 p1 (dataOf s1 p0 * (nodeAt s i).grad))
    | _ => none
  | some PTag.ppow =>
    match (nodeAt s i).prev with
    | p0 :: p1 :: _ =>
      if p0 = i ∨ p1 = p0 then none
      else
        some (bumpGrad s p0
          (dataOf s p1 * fpow (dataOf s p0) (dataOf s p1 - 1) * (nodeAt s i).grad))
    | _ => none
  | some PTag.ptanh =>
    match (nodeAt s i).prev with
    | p0 :: _ =>
      if p0 = i then none
      else some (bumpGrad s p0 ((1 - fpow (nodeAt s i).data 2) * (nodeAt s i).grad))
    | _ => none

/-- The recursive worklist form of `fn _backward`: pop a node; skip it when
the visited set contains it; otherwise insert its pre-propagate snapshot,
run its propagate closure if any (recording the invocation in the log),
and push its operands in order ahead of the remaining work.  This walks
nodes in exactly the order of the recursive source (a node, then each of
its operands depth-first, then its pending siblings), with one fuel unit
per popped node. -/
def bwd (fpow : ℚ → ℚ → ℚ) :
    Nat → State → List (Nat × State) → List Nat → List Nat →
    Option (State × List (Nat × State) × List Nat)
  | 0, _, _, _, _ => none
  | _ + 1, s, v, log, [] => some (s, v, log)
  | f + 1, s, v, log, i :: rest =>
    if containsV s v i then bwd fpow f s v log rest
    else
      match runProp fpow s i with
      | none => none
      | some s1 =>
        bwd fpow f s1 ((i, s) :: v)
          (if (nodeAt s i).prop.isSome then log ++ [i] else log)
          ((nodeAt s1 i).prev ++ rest)

/-- `Value::backward`: overwrite the root gradient with `1.0`, then run
`_backward` from the root with a fresh visited set.  Returns the final
arena and the log of propagate invocations, or `none` on a panic. -/
def backward (fpow : ℚ → ℚ → ℚ) (fuel : Nat) (s : State) (root : Nat) :
    Option (State × List Nat) :=
  (bwd fpow fuel (mapAt s root fun n => { n with grad := 1 }) [] [] [root]).map
    fun r => (r.1, r.2.2)

/-- Plain exponentiation on naturals, by squaring-free recursion. -/
def qpowNat : ℚ → Nat → ℚ
  | _, 0 => 1
  | a, n + 1 => a * qpowNat a n

/-- Concrete stand-in for `f64::powf`, exact on integer exponents: for an
integral exponent it is the integer power, elsewhere a junk value `0`.
Closed executions below only apply it at integer exponents on values where
`powf` is exact. -/
def ratPow (a b : ℚ) : ℚ :=
  if b.den = 1 then
    if 0 ≤ b.num then qpowNat a b.num.toNat else (qpowNat a (-b.num).toNat)⁻¹
  else 0

/-! ### Concrete graphs used by the claims -/

/-- Inner fan-out graph: `w = leaf 4` (id 0), `one = leaf 1` (id 1),
`u = mul(w, one)` (id 2), `two = leaf 2` (id 3), `p1 = mul(u, two)` (id 4),
`three = leaf 3` (id 5), `p2 = mul(u, three)` (id 6),
`loss = add(p1, p2)` (id 7).  The value of `loss` is `4*2 + 4*3 = 20` and
the true derivative of `loss` with respect to `w` is `2 + 3 = 5`. -/
def G1 : State :=
  add (mul (leaf (mul (leaf (mul (leaf (leaf [] 4) 1) 0 1) 2) 2 3) 3) 2 5) 4 6

/-- Label-sensitivity graph: `a = leaf 1` (id 0), `two = leaf 2` (id 1),
`m = leaf (-2)` (id 2), `e = pow(a, two)` (id 3), `n = mul(a, m)` (id 4),
`X = add(e, n)` (id 5), `q = pow(a, two)` (id 6), `root = add(X, q)` (id 7).
`e` and `q` are distinct nodes with identical content.  The true derivative
of `root = a^2 + a*m + a^2` with respect to `a` at `a = 1, m = -2` is `2`. -/
def G9 : State :=
  add (pow ratPow (add (mul (pow ratPow (leaf (leaf (leaf [] 1) 2) (-2)) 0 1) 0 2) 3 4) 0 1) 5 6

/-- Fan-out regression graph over a parameter `x`: `w = leaf x` (id 0),
`two = leaf 2` (id 1), `p1 = mul(w, two)` (id 2), `three = leaf 3` (id 3),
`p2 = mul(w, three)` (id 4), `loss = add(p1, p2)` (id 5). -/
def W2 (x : ℚ) : State :=
  add (mul (leaf (mul (leaf (leaf [] x) 2) 0 1) 3) 0 3) 2 4

/-- Two-leaf sum graph: `leaf x` (id 0), `leaf y` (id 1), `add` (id 2). -/
def W5 (x y : ℚ) : State :=
  add (leaf (leaf [] x) y) 0 1

/-- The arena of `W2 x` with explicit gradients, used to spell out the
intermediate arenas of the traversal. -/
def W2g (x gw g2 gp1 g3 gp2 gl : ℚ) : State :=
  [⟨x, gw, none, none, [], none⟩,
   ⟨2, g2, none, none, [], none⟩,
   ⟨x * 2, gp1, none, some "*", [0, 1], some PTag.pmul⟩,
   ⟨3, g3, none, none, [], none⟩,
   ⟨x * 3, gp2, none, some "*", [0, 3], some PTag.pmul⟩,
   ⟨x * 2 + x * 3, gl, none, some "+", [2, 4], some PTag.padd⟩]

/-- The arena of `W5 x y` with explicit gradients. -/
def W5g (x y g0 g1 g2 : ℚ) : State :=
  [⟨x, g0, none, none, [], none⟩, ⟨y, g1, none, none, [], none⟩,
   ⟨x + y, g2, none, some "+", [0, 1], some PTag.padd⟩]

/-- Two leaves `2` and `3`, the operands of the witness for the power rule. -/
def C4s : State := leaf (leaf [] 2) 3

/-- Arena holding `pow(leaf 2, leaf 3)` with the gradient of the power node
seeded to `1`, so its propagate rule can be exercised directly. -/
def C4t : State := mapAt (pow ratPow C4s 0 1) 2 fun n => { n with grad := 1 }

/-- A single leaf with value `5`, used by several witnesses. -/
def C6s : State := leaf [] 5

/-! ### Basic lemmas about the arena operations -/

theorem length_mapAt (s : State) (i : Nat) (f : VNode → VNode) :
    (mapAt s i f).length = s.length := by
  simp [mapAt]

theorem nodeAt_mapAt_ne (s : State) (i j : Nat) (f : VNode → VNode) (h : j ≠ i) :
    nodeAt (mapAt s i f) j = nodeAt s j := by
  simp [mapAt, nodeAt, List.getD, List.getElem?_set_ne (Ne.symm h)]

theorem nodeAt_mapAt_self (s : State) (i : Nat) (f : VNode → VNode) (h : i < s.length) :
    nodeAt (mapAt s i f) i = f (nodeAt s i) := by
  simp [mapAt, nodeAt, List.getD, List.getElem?_set_self, h]

theorem mapAt_oob (s : State) (i : Nat) (f : VNode → VNode) (h : s.length ≤ i) :
    mapAt s i f = s := by
  simp [mapAt, List.set_eq_of_length_le h]

theorem nodeAt_append_new (s : State) (n : VNode) : nodeAt (s ++ [n]) s.length = n := by
  simp [nodeAt, List.getD]

theorem nodeAt_append_left (s rest : State) (j : Nat) (h : j < s.length) :
    nodeAt (s ++ rest) j = nodeAt s j := by
  simp [nodeAt, List.getD, List.getElem?_append_left h]

/-! ### Shape preservation: everything except gradients -/

/-- All fields of a node except the gradient. -/
def shape (n : VNode) : ℚ × Option String × Option String × List Nat × Option PTag :=
  (n.data, n.label, n.op, n.prev, n.prop)

/-- `t` has the same length as `s` and every node agrees with `s` on every
field except possibly the gradient. -/
def sameShape (s t : State) : Prop :=
  s.length = t.length ∧ ∀ j : Nat, shape (nodeAt t j) = shape (nodeAt s j)

theorem sameShape_refl (s : State) : sameShape s s := ⟨rfl, fun _ => rfl⟩

theorem sameShape_trans {s t u : State} (h1 : sameShape s t) (h2 : sameShape t u) :
    sameShape s u :=
  ⟨h1.1.trans h2.1, fun j => (h2.2 j).trans (h1.2 j)⟩

/-- Updating only the gradient of one node preserves the shape. -/
theorem sameShape_gradMap (s : State) (i : Nat) (g : VNode → ℚ) :
    sameShape s (mapAt s i fun n => { n with grad := g n }) := by
  refine ⟨(length_mapAt s i _).symm, fun j => ?_⟩
  by_cases hj : j = i
  · subst hj
    by_cases hi : j < s.length
    · rw [nodeAt_mapAt_self s j _ hi]; rfl
    · rw [mapAt_oob s j _ (Nat.le_of_not_lt hi)]
  · rw [nodeAt_mapAt_ne s i j _ hj]

theorem sameShape_bumpGrad (s : State) (i : Nat) (d : ℚ) :
    sameShape s (bumpGrad s i d) :=
  sameShape_gradMap s i _

theorem sameShape_data {s t : State} (h : sameShape s t) (j : Nat) :
    dataOf t j = dataOf s j :=
  congrArg (fun p => p.1) (h.2 j)

/-- One propagate invocation only adds to operand gradients. -/
theorem runProp_sameShape {fpow : ℚ → ℚ → ℚ} {s t : State} {i : Nat}
    (h : runProp fpow s i = some t) : sameShape s t := by
  rcases hp : (nodeAt s i).prop with - | tag <;>
    rcases hv : (nodeAt s i).prev with - | ⟨p0, - | ⟨p1, rest⟩⟩ <;>
    [skip; skip; skip; cases tag; cases tag; cases tag] <;>
    simp only [runProp, hp, hv] at h <;>
    first
      | (simp only [Option.some.injEq] at h; exact h ▸ sameShape_refl s)
      | (split at h
         case isTrue => exact absurd h (by simp)
         case isFalse =>
           simp only [Option.some.injEq] at h
           first
             | exact h ▸ sameShape_trans (sameShape_bumpGrad _ _ _) (sameShape_bumpGrad _ _ _)
             | exact h ▸ sameShape_bumpGrad _ _ _)
      | exact absurd h (by simp)

/-! ### Unfolding equations for the backward interpreter -/

theorem bwd_zero (fpow : ℚ → ℚ → ℚ) (s : State) (v : List (Nat × State)) (log wl : List Nat) :
    bwd fpow 0 s v log wl = none := rfl

theorem bwd_nil (fpow : ℚ → ℚ → ℚ) (f : Nat) (s : State) (v : List (Nat × State)) (log : List Nat) :
    bwd fpow (f + 1) s v log [] = some (s, v, log) := rfl

theorem bwd_cons (fpow : ℚ → ℚ → ℚ) (f : Nat) (s : State) (v : List (Nat × State))
    (log : List Nat) (i : Nat) (rest : List Nat) :
    bwd fpow (f + 1) s v log (i :: rest) =
      if containsV s v i then bwd fpow f s v log rest
      else
        match runProp fpow s i with
        | none => none
        | some s1 =>
          bwd fpow f s1 ((i, s) :: v)
            (if (nodeAt s i).prop.isSome then log ++ [i] else log)
            ((nodeAt s1 i).prev ++ rest) := rfl

/-- Stepping equation: a node found in the visited set is skipped. -/
theorem bwd_skip (fpow : ℚ → ℚ → ℚ) (f : Nat) (s : State) (v : List (Nat × State))
    (log : List Nat) (i : Nat) (rest : List Nat) (hc : containsV s v i = true) :
    bwd fpow (f + 1) s v log (i :: rest) = bwd fpow f s v log rest := by
  rw [bwd_cons]
  simp [hc]

/-- Stepping equation: a node not in the visited set is inserted with its
pre-propagate snapshot, propagated, and its operands are pushed. -/
theorem bwd_visit (fpow : ℚ → ℚ → ℚ) (f : Nat) (s : State) (v : List (Nat × State))
    (log : List Nat) (i : Nat) (rest : List Nat) (hc : containsV s v i = false) :
    bwd fpow (f + 1) s v log (i :: rest) =
      match runProp fpow s i with
      | none => none
      | some s1 =>
        bwd fpow f s1 ((i, s) :: v)
          (if (nodeAt s i).prop.isSome then log ++ [i] else log)
          ((nodeAt s1 i).prev ++ rest) := by
  rw [bwd_cons]
  simp [hc]

/-- The whole traversal only adds to gradients. -/
theorem bwd_sameShape {fpow : ℚ → ℚ → ℚ} :
    ∀ {fuel : Nat} {s : State} {v : List (Nat × State)} {log wl : List Nat}
      {t : State} {v' : List (Nat × State)} {log' : List Nat},
      bwd fpow fuel s v log wl = some (t, v', log') → sameShape s t := by
  intro fuel
  induction fuel with
  | zero => intro s v log wl t v' log' h; rw [bwd_zero] at h; exact absurd h (by simp)
  | succ f ih =>
    intro s v log wl t v' log' h
    match wl with
    | [] =>
      rw [bwd_nil] at h
      simp only [Option.some.injEq, Prod.mk.injEq] at h
      exact h.1 ▸ sameShape_refl s
    | i :: rest =>
      rw [bwd_cons] at h
      split at h
      · exact ih h
      · rcases hr : runProp fpow s i with - | s1 <;> rw [hr] at h
        · exact absurd h (by simp)
        · exact sameShape_trans (runProp_sameShape hr) (ih h)

/-- `backward` only seeds the root gradient and adds to gradients: the
`data`, `label`, `op`, `prev` and `propagate` fields of every node, and
the arena length, are unchanged. -/
theorem backward_sameShape {fpow : ℚ → ℚ → ℚ} {fuel : Nat} {s : State} {root : Nat}
    {t : State} {log : List Nat} (h : backward fpow fuel s root = some (t, log)) :
    sameShape s t := by
  unfold backward at h
  rcases hb : bwd fpow fuel (mapAt s root fun n => { n with grad := 1 }) [] [] [root] with - | r
  · rw [hb] at h
    simp at h
  · obtain ⟨t1, v1, log1⟩ := r
    rw [hb] at h
    simp only [Option.map_some', Option.some.injEq, Prod.mk.injEq] at h
    exact sameShape_trans (sameShape_gradMap s root _) (h.1 ▸ bwd_sameShape hb)

/-! ### Worklists made of leaves -/

/-- Popping a leaf (no propagate function, no operands) never changes the
arena or the log, whatever the visited set decides. -/
theorem bwd_leaf_step (fpow : ℚ → ℚ → ℚ) (f : Nat) (s : State) (v : List (Nat × State))
    (log : List Nat) (i : Nat) (rest : List Nat)
    (hprop : (nodeAt s i).prop = none) (hprev : (nodeAt s i).prev = []) :
    bwd fpow (f + 1) s v log (i :: rest) =
      bwd fpow f s (if containsV s v i then v else (i, s) :: v) log rest := by
  rw [bwd_cons]
  by_cases h : containsV s v i
  · simp [h]
  · simp [h, runProp, hprop, hprev]

/-- Processing a worklist of leaves returns the arena and log unchanged. -/
theorem bwd_leaves (fpow : ℚ → ℚ → ℚ) :
    ∀ (wl : List Nat) (fuel : Nat) (s : State) (v : List (Nat × State)) (log : List Nat),
      (∀ i ∈ wl, (nodeAt s i).prop = none ∧ (nodeAt s i).prev = []) →
      wl.length < fuel →
      ∃ v', bwd fpow fuel s v log wl = some (s, v', log) := by
  intro wl
  induction wl with
  | nil =>
    intro fuel s v log _ hf
    obtain ⟨f, rfl⟩ : ∃ f, fuel = f + 1 := ⟨fuel - 1, by omega⟩
    exact ⟨v, bwd_nil fpow f s v log⟩
  | cons i rest ih =>
    intro fuel s v log hwl hf
    obtain ⟨f, rfl⟩ : ∃ f, fuel = f + 1 := ⟨fuel - 1, by omega⟩
    rw [bwd_leaf_step fpow f s v log i rest (hwl i (by simp)).1 (hwl i (by simp)).2]
    exact ih f s _ log (fun j hj => hwl j (by simp [hj]))
      (by simp only [List.length_cons] at hf; omega)


/-! ### The claims -/

/-- Claim C2.  Fan-out regression: for every leaf value `x`, with
`p1 = mul(w, leaf 2)`, `p2 = mul(w, leaf 3)` and `loss = add(p1, p2)`,
after `backward(loss)` the gradient of `w` is `5`, the sum of the
contributions of both usages. -/
theorem claim2_fanout_regression (fpow : ℚ → ℚ → ℚ) (x : ℚ) :
    ((backward fpow 10 (W2 x) 5).map fun r => gradOf r.1 0) = some 5 := by
  unfold backward
  have e0 : (mapAt (W2 x) 5 fun n => { n with grad := 1 }) = W2g x 0 0 0 0 0 1 := rfl
  rw [e0]
  have h1 : bwd fpow 10 (W2g x 0 0 0 0 0 1) [] [] [5] =
      bwd fpow 9 (W2g x 0 0 (0 + 1) 0 (0 + 1) 1) [(5, W2g x 0 0 0 0 0 1)] [5] [2, 4] := rfl
  have h2 : bwd fpow 9 (W2g x 0 0 (0 + 1) 0 (0 + 1) 1) [(5, W2g x 0 0 0 0 0 1)] [5] [2, 4] =
      bwd fpow 8 (W2g x (0 + 2 * (0 + 1)) (0 + x * (0 + 1)) (0 + 1) 0 (0 + 1) 1)
        [(2, W2g x 0 0 (0 + 1) 0 (0 + 1) 1), (5, W2g x 0 0 0 0 0 1)] [5, 2] [0, 1, 4] := rfl
  have h3 : bwd fpow 8 (W2g x (0 + 2 * (0 + 1)) (0 + x * (0 + 1)) (0 + 1) 0 (0 + 1) 1)
        [(2, W2g x 0 0 (0 + 1) 0 (0 + 1) 1), (5, W2g x 0 0 0 0 0 1)] [5, 2] [0, 1, 4] =
      bwd fpow 7 (W2g x (0 + 2 * (0 + 1)) (0 + x * (0 + 1)) (0 + 1) 0 (0 + 1) 1)
        [(0, W2g x (0 + 2 * (0 + 1)) (0 + x * (0 + 1)) (0 + 1) 0 (0 + 1) 1),
         (2, W2g x 0 0 (0 + 1) 0 (0 + 1) 1), (5, W2g x 0 0 0 0 0 1)] [5, 2] [1, 4] := rfl
  rw [h1, h2, h3,
    bwd_leaf_step fpow 6 (W2g x (0 + 2 * (0 + 1)) (0 + x * (0 + 1)) (0 + 1) 0 (0 + 1) 1)
      [(0, W2g x (0 + 2 * (0 + 1)) (0 + x * (0 + 1)) (0 + 1) 0 (0 + 1) 1),
       (2, W2g x 0 0 (0 + 1) 0 (0 + 1) 1), (5, W2g x 0 0 0 0 0 1)] [5, 2] 1 [4] rfl rfl]
  have tail : ∀ V' : List (Nat × State),
      containsV (W2g x (0 + 2 * (0 + 1)) (0 + x * (0 + 1)) (0 + 1) 0 (0 + 1) 1) V' 4 = false →
      (((bwd fpow 6 (W2g x (0 + 2 * (0 + 1)) (0 + x * (0 + 1)) (0 + 1) 0 (0 + 1) 1)
          V' [5, 2] [4]).map fun r => (r.1, r.2.2)).map fun r => gradOf r.1 0) = some 5 := by
    intro V' hc
    have h5 : bwd fpow 6 (W2g x (0 + 2 * (0 + 1)) (0 + x * (0 + 1)) (0 + 1) 0 (0 + 1) 1)
          V' [5, 2] [4] =
        bwd fpow 5
          (W2g x (0 + 2 * (0 + 1) + 3 * (0 + 1)) (0 + x * (0 + 1)) (0 + 1) (0 + x * (0 + 1))
            (0 + 1) 1)
          ((4, W2g x (0 + 2 * (0 + 1)) (0 + x * (0 + 1)) (0 + 1) 0 (0 + 1) 1) :: V')
          [5, 2, 4] [0, 3] := by
      rw [bwd_visit fpow 5 _ V' [5, 2] 4 [] hc]
      rfl
    rw [h5]
    obtain ⟨v', hv⟩ := bwd_leaves fpow [0, 3] 5
      (W2g x (0 + 2 * (0 + 1) + 3 * (0 + 1)) (0 + x * (0 + 1)) (0 + 1) (0 + x * (0 + 1))
        (0 + 1) 1)
      ((4, W2g x (0 + 2 * (0 + 1)) (0 + x * (0 + 1)) (0 + 1) 0 (0 + 1) 1) :: V') [5, 2, 4]
      (by intro j hj; fin_cases hj <;> exact ⟨rfl, rfl⟩) (by norm_num)
    rw [hv]
    norm_num [gradOf, nodeAt, W2g]
  split
  · exact tail _ (by norm_num [containsV, deq, nodeAt, dflt, deepFuel, W2g])
  · exact tail _ (by norm_num [containsV, deq, nodeAt, dflt, deepFuel, W2g])

/-- Claim C4.  The `pow` constructor returns a node whose value is `powf`
of the operand values, and when its rule runs with settled gradient `g` it
adds `b.value * powf a.value (b.value - 1) * g` to the gradient of the
base operand and leaves every other node, in particular the exponent
operand, unchanged. -/
theorem claim4_power_rule (fpow : ℚ → ℚ → ℚ) (s t : State) (a b i p q : Nat)
    (hprop : (nodeAt t i).prop = some PTag.ppow)
    (hprev : (nodeAt t i).prev = [p, q])
    (hpi : p ≠ i) (hqp : q ≠ p) (hp : p < t.length) :
    nodeAt (pow fpow s a b) s.length =
      { data := fpow (dataOf s a) (dataOf s b), grad := 0, label := none,
        op := some "^", prev := [a, b], prop := some PTag.ppow } ∧
    runProp fpow t i =
      some (bumpGrad t p (dataOf t q * fpow (dataOf t p) (dataOf t q - 1) * gradOf t i)) ∧
    gradOf (bumpGrad t p (dataOf t q * fpow (dataOf t p) (dataOf t q - 1) * gradOf t i)) p =
      gradOf t p + dataOf t q * fpow (dataOf t p) (dataOf t q - 1) * gradOf t i ∧
    ∀ j, j ≠ p →
      nodeAt (bumpGrad t p (dataOf t q * fpow (dataOf t p) (dataOf t q - 1) * gradOf t i)) j =
        nodeAt t j := by
  refine ⟨?_, ?_, ?_, fun j hj => nodeAt_mapAt_ne t p j _ hj⟩
  · unfold pow
    exact nodeAt_append_new s _
  · unfold runProp
    simp [hprop, hprev, hpi, hqp, gradOf]
  · unfold bumpGrad
    simp [gradOf, nodeAt_mapAt_self t p _ hp]

/-- Claim C5.  For every `x` and `y`, with `c = add(leaf x, leaf y)`, one
`backward(c)` leaves gradient `1` in each leaf, and a second `backward(c)`
with no intervening `zero_grad` leaves `2`: the engine adds to operand
gradients and never overwrites them, so repeated backward accumulates. -/
theorem claim5_repeated_backward_accumulates (fpow : ℚ → ℚ → ℚ) (x y : ℚ) :
    ((backward fpow 10 (W5 x y) 2).map fun r => (gradOf r.1 0, gradOf r.1 1)) = some (1, 1) ∧
    (((backward fpow 10 (W5 x y) 2).bind fun r => backward fpow 10 r.1 2).map
        fun r => (gradOf r.1 0, gradOf r.1 1)) = some (2, 2) := by
  have run5 : ∀ g0 g1 gz : ℚ,
      backward fpow 10 (W5g x y g0 g1 gz) 2 = some (W5g x y (g0 + 1) (g1 + 1) 1, [2]) := by
    intro g0 g1 gz
    unfold backward
    have h0 : (mapAt (W5g x y g0 g1 gz) 2 fun n => { n with grad := 1 }) =
        W5g x y g0 g1 1 := rfl
    rw [h0]
    have h1 : bwd fpow 10 (W5g x y g0 g1 1) [] [] [2] =
        bwd fpow 9 (W5g x y (g0 + 1) (g1 + 1) 1) [(2, W5g x y g0 g1 1)] [2] [0, 1] := rfl
    rw [h1]
    obtain ⟨v1, hv1⟩ := bwd_leaves fpow [0, 1] 9 (W5g x y (g0 + 1) (g1 + 1) 1)
      [(2, W5g x y g0 g1 1)] [2]
      (by intro j hj; fin_cases hj <;> exact ⟨rfl, rfl⟩) (by norm_num)
    rw [hv1]
    rfl
  have e0 : W5 x y = W5g x y 0 0 0 := rfl
  rw [e0, run5 0 0 0]
  constructor
  · norm_num [gradOf, nodeAt, W5g]
  · rw [Option.some_bind, run5 (0 + 1) (0 + 1) 1]
    norm_num [gradOf, nodeAt, W5g]

/-- Claim C6.  Calling `backward` on a node with no operands and no
propagate function is valid: it overwrites that node gradient with `1`,
leaves its other fields unchanged, and leaves every other node untouched. -/
theorem claim6_backward_on_leaf (fpow : ℚ → ℚ → ℚ) (fuel : Nat) (s : State) (i : Nat)
    (hi : i < s.length) (hprop : (nodeAt s i).prop = none) (hprev : (nodeAt s i).prev = [])
    (hf : 2 ≤ fuel) :
    backward fpow fuel s i = some (mapAt s i fun n => { n with grad := 1 }, []) ∧
    gradOf (mapAt s i fun n => { n with grad := 1 }) i = 1 ∧
    dataOf (mapAt s i fun n => { n with grad := 1 }) i = dataOf s i ∧
    ∀ j, j ≠ i → nodeAt (mapAt s i fun n => { n with grad := 1 }) j = nodeAt s j := by
  obtain ⟨f, rfl⟩ : ∃ f, fuel = f + 2 := ⟨fuel - 2, by omega⟩
  have hnode : nodeAt (mapAt s i fun n => { n with grad := 1 }) i =
      { nodeAt s i with grad := 1 } := nodeAt_mapAt_self s i _ hi
  refine ⟨?_, ?_, ?_, fun j hj => nodeAt_mapAt_ne s i j _ hj⟩
  · unfold backward
    have hc : containsV (mapAt s i fun n => { n with grad := 1 }) [] i = false := rfl
    rw [show f + 2 = (f + 1) + 1 from rfl, bwd_visit fpow (f + 1) _ [] [] i [] hc]
    have hrp : runProp fpow (mapAt s i fun n => { n with grad := 1 }) i =
        some (mapAt s i fun n => { n with grad := 1 }) := by
      unfold runProp
      simp [hnode, hprop]
    rw [hrp]
    simp [hnode, hprop, hprev, bwd_nil]
  · simp [gradOf, hnode]
  · simp [dataOf, hnode]

/-- Claim C7.  A successful `backward` changes only gradients: the length
of the arena and the `data`, `label`, `op`, `prev` and `propagate` fields
of every node are unchanged; and every operation constructor leaves every
existing node, in particular its operands, fully unchanged. -/
theorem claim7_backward_mutates_only_gradients :
    (∀ (fpow : ℚ → ℚ → ℚ) (fuel : Nat) (s : State) (root : Nat) (t : State) (log : List Nat),
      backward fpow fuel s root = some (t, log) →
      t.length = s.length ∧
      ∀ j : Nat, dataOf t j = dataOf s j ∧ (nodeAt t j).label = (nodeAt s j).label ∧
        (nodeAt t j).op = (nodeAt s j).op ∧ (nodeAt t j).prev = (nodeAt s j).prev ∧
        (nodeAt t j).prop = (nodeAt s j).prop) ∧
    (∀ (s : State) (a b j : Nat), j < s.length →
      nodeAt (add s a b) j = nodeAt s j ∧ nodeAt (mul s a b) j = nodeAt s j ∧
      (∀ fpow : ℚ → ℚ → ℚ, nodeAt (pow fpow s a b) j = nodeAt s j) ∧
      (∀ ftanh : ℚ → ℚ, nodeAt (tanh ftanh s a) j = nodeAt s j) ∧
      (∀ x : ℚ, nodeAt (leaf s x) j = nodeAt s j) ∧
      nodeAt (neg s a) j = nodeAt s j ∧ nodeAt (sub s a b) j = nodeAt s j ∧
      (∀ ids : List Nat, nodeAt (sumOf s ids) j = nodeAt s j)) := by
  constructor
  · intro fpow fuel s root t log h
    obtain ⟨hlen, hsh⟩ := backward_sameShape h
    refine ⟨hlen.symm, fun j => ?_⟩
    have hj := hsh j
    exact ⟨congrArg (fun p => p.1) hj, congrArg (fun p => p.2.1) hj,
      congrArg (fun p => p.2.2.1) hj, congrArg (fun p => p.2.2.2.1) hj,
      congrArg (fun p => p.2.2.2.2) hj⟩
  · intro s a b j hj
    have hfold : ∀ (ids : List Nat) (st : State), j < st.length →
        nodeAt (ids.foldl (fun acc i => add acc (acc.length - 1) i) st) j = nodeAt st j := by
      intro ids
      induction ids with
      | nil => intro st h; simp
      | cons i rest ih =>
        intro st h
        rw [List.foldl_cons]
        have h2 : j < (add st (st.length - 1) i).length := by
          unfold add
          simp
          omega
        rw [ih _ h2]
        unfold add
        exact nodeAt_append_left st _ j h
    refine ⟨nodeAt_append_left s _ j hj, nodeAt_append_left s _ j hj,
      fun fpow => nodeAt_append_left s _ j hj, fun ftanh => nodeAt_append_left s _ j hj,
      fun x => nodeAt_append_left s _ j hj, ?_, ?_, ?_⟩
    · show nodeAt (mul (leaf s (-1)) a s.length) j = nodeAt s j
      unfold mul leaf
      rw [List.append_assoc]
      exact nodeAt_append_left s _ j hj
    · show nodeAt (sub s a b) j = nodeAt s j
      unfold sub add neg mul leaf
      rw [List.append_assoc, List.append_assoc]
      exact nodeAt_append_left s _ j hj
    · intro ids
      have h0 : j < (leaf s 0).length := by
        unfold leaf
        simp
        omega
      unfold sumOf
      rw [hfold ids _ h0]
      unfold leaf
      exact nodeAt_append_left s _ j hj

/-- Claim C8.  For a node with value `v` and gradient `g`, `adjust(node, s)`
sets the value to `v + s*g` and leaves the gradient, operator, operands
and label of the node, and every other node, unchanged. -/
theorem claim8_adjust_postcondition (s : State) (i : Nat) (st : ℚ) (hi : i < s.length) :
    dataOf (adjust s i st) i = dataOf s i + st * gradOf s i ∧
    gradOf (adjust s i st) i = gradOf s i ∧
    (nodeAt (adjust s i st) i).op = (nodeAt s i).op ∧
    (nodeAt (adjust s i st) i).prev = (nodeAt s i).prev ∧
    (nodeAt (adjust s i st) i).label = (nodeAt s i).label ∧
    ∀ j, j ≠ i → nodeAt (adjust s i st) j = nodeAt s j := by
  unfold adjust
  have hnode := nodeAt_mapAt_self s i (fun n => { n with data := n.data + st * n.grad }) hi
  exact ⟨by unfold dataOf gradOf; rw [hnode], by unfold gradOf; rw [hnode],
    by rw [hnode], by rw [hnode], by rw [hnode], fun j hj => nodeAt_mapAt_ne s i j _ hj⟩

/-- Claim C9, amended.  Labels never affect values: if the labeled and the
unlabeled run both complete, every node has the same value in both final
arenas, because labeling changes no value and `backward` never writes a
value. -/
theorem claim9_labels_preserve_values (fpow : ℚ → ℚ → ℚ) (fuel : Nat) (s : State) (i : Nat)
    (txt : String) (root : Nat) (t1 t2 : State) (l1 l2 : List Nat)
    (h1 : backward fpow fuel (add_label s i txt) root = some (t1, l1))
    (h2 : backward fpow fuel s root = some (t2, l2)) (j : Nat) :
    dataOf t1 j = dataOf t2 j := by
  have e1 := sameShape_data (backward_sameShape h1) j
  have e2 := sameShape_data (backward_sameShape h2) j
  have e3 : dataOf (add_label s i txt) j = dataOf s j := by
    unfold add_label
    by_cases hj : j = i
    · subst hj
      by_cases hi : j < s.length
      · unfold dataOf
        rw [nodeAt_mapAt_self s j _ hi]
      · rw [mapAt_oob s j _ (Nat.le_of_not_lt hi)]
    · unfold dataOf
      rw [nodeAt_mapAt_ne s i j _ hj]
  rw [e1, e3, ← e2]

/-- Claim C10.  When the same node is both operands of `add` or `mul`, the
propagate rule takes two simultaneous mutable borrows of that one cell, so
`backward` on the result panics (modelled as `none`) instead of adding the
combined contribution: the binary rules require distinct operand nodes. -/
theorem claim10_same_operand_aborts (fpow : ℚ → ℚ → ℚ) (fuel : Nat) (s : State) (a : Nat)
    (hf : 1 ≤ fuel) :
    backward fpow fuel (add s a a) s.length = none ∧
    backward fpow fuel (mul s a a) s.length = none := by
  obtain ⟨f, rfl⟩ : ∃ f, fuel = f + 1 := ⟨fuel - 1, by omega⟩
  constructor
  · unfold backward
    have hc : containsV (mapAt (add s a a) s.length fun n => { n with grad := 1 }) []
        s.length = false := rfl
    rw [bwd_visit fpow f _ [] [] s.length [] hc]
    have hn : nodeAt (mapAt (add s a a) s.length fun n => { n with grad := 1 }) s.length =
        { data := dataOf s a + dataOf s a, grad := 1, label := none, op := some "+",
          prev := [a, a], prop := some PTag.padd } := by
      have hlen : s.length < (add s a a).length := by simp [add]
      rw [nodeAt_mapAt_self _ _ _ hlen]
      unfold add
      rw [nodeAt_append_new]
    have hrp : runProp fpow (mapAt (add s a a) s.length fun n => { n with grad := 1 })
        s.length = none := by
      unfold runProp
      simp [hn]
    rw [hrp]
    rfl
  · unfold backward
    have hc : containsV (mapAt (mul s a a) s.length fun n => { n with grad := 1 }) []
        s.length = false := rfl
    rw [bwd_visit fpow f _ [] [] s.length [] hc]
    have hn : nodeAt (mapAt (mul s a a) s.length fun n => { n with grad := 1 }) s.length =
        { data := dataOf s a * dataOf s a, grad := 1, label := none, op := some "*",
          prev := [a, a], prop := some PTag.pmul } := by
      have hlen : s.length < (mul s a a).length := by simp [mul]
      rw [nodeAt_mapAt_self _ _ _ hlen]
      unfold mul
      rw [nodeAt_append_new]
    have hrp : runProp fpow (mapAt (mul s a a) s.length fun n => { n with grad := 1 })
        s.length = none := by
      unfold runProp
      simp [hn]
    rw [hrp]
    rfl

/-! ### Closed executions through the kernel

Rat arithmetic is irreducible by default, which keeps `decide` from
evaluating the interpreter; the executions below restore reducibility
locally.  -/

attribute [local semireducible] Rat.add Rat.mul Rat.sub Rat.inv

/-- Claim C1.  The contract of `backward(root)` demands that every node
reachable from the root end up with the total partial derivative of the
root value with respect to that node, summed over all paths, which
requires that a rule runs only after all consumers contributed.  The code
violates this: on the graph `G1`, where the derivative of `loss` with
respect to `w` (id 0) is `5`, the engine leaves `7` in the gradient of
`w`, because the rule of the shared inner node `u` runs before its second
consumer `p2` has contributed, and the content-keyed visited set fails to
stop the second traversal of `u` once its gradient has changed. -/
theorem claim1_backward_contract_fails_on_inner_fanout :
    ((backward ratPow 20 G1 7).map fun r => gradOf r.1 0) = some 7 ∧ (7 : ℚ) ≠ 5 :=
  ⟨by decide, by decide⟩

/-- Claim C3.  The spec demands a visited set keyed on node identity, so
that every reachable node has its rule invoked exactly once.  The code
keys the set on hashed node content instead, and on the graph `G1` the
invocation log is `[7, 4, 2, 6, 2]`: the rule of node `2` (the shared
inner node `u`) is invoked twice in a single `backward` call, because the
gradient of `u` changed between its insertion and the second lookup. -/
theorem claim3_rule_runs_twice_under_content_hashing :
    ((backward ratPow 20 G1 7).map fun r => r.2) = some [7, 4, 2, 6, 2] ∧
    ([7, 4, 2, 6, 2] : List Nat).count 2 = 2 :=
  ⟨by decide, by decide⟩

/-- Claim C9, counterexample.  Labels are not semantically inert for
gradients: on the graph `G9`, the unlabeled run leaves gradient `0` in the
leaf `a`, while the same run after labeling node `e` (id 3) leaves `2`.
The label breaks the content equality between the snapshot of `e` and the
structurally identical node `q` (id 6), so `q` is no longer skipped and
its rule contributes. -/
theorem claim9_label_changes_gradient :
    ((backward ratPow 20 G9 7).map fun r => gradOf r.1 0) = some 0 ∧
    ((backward ratPow 20 (add_label G9 3 "e") 7).map fun r => gradOf r.1 0) = some 2 ∧
    (0 : ℚ) ≠ 2 :=
  ⟨by decide, by decide, by decide⟩

/-- Witness for claim C4 at `pow(leaf 2, leaf 3)` with seeded gradient `1`:
the forward value is `ratPow 2 3 = 8` and the rule adds
`3 * ratPow 2 2 * 1 = 12` to the base gradient only. -/
theorem claim4_power_rule_witness :
    (nodeAt C4t 2).prop = some PTag.ppow ∧
    (nodeAt (pow ratPow C4s 0 1) C4s.length =
      { data := ratPow (dataOf C4s 0) (dataOf C4s 1), grad := 0, label := none,
        op := some "^", prev := [0, 1], prop := some PTag.ppow } ∧
    runProp ratPow C4t 2 =
      some (bumpGrad C4t 0
        (dataOf C4t 1 * ratPow (dataOf C4t 0) (dataOf C4t 1 - 1) * gradOf C4t 2)) ∧
    gradOf (bumpGrad C4t 0
        (dataOf C4t 1 * ratPow (dataOf C4t 0) (dataOf C4t 1 - 1) * gradOf C4t 2)) 0 =
      gradOf C4t 0 + dataOf C4t 1 * ratPow (dataOf C4t 0) (dataOf C4t 1 - 1) * gradOf C4t 2 ∧
    nodeAt (bumpGrad C4t 0
        (dataOf C4t 1 * ratPow (dataOf C4t 0) (dataOf C4t 1 - 1) * gradOf C4t 2)) 1 =
      nodeAt C4t 1) :=
  have h := claim4_power_rule ratPow C4s C4t 0 1 2 0 1 (by decide) (by decide) (by decide)
    (by decide) (by decide)
  ⟨by decide, h.1, h.2.1, h.2.2.1, h.2.2.2 1 (by decide)⟩

/-- Witness for claim C6 on the single leaf arena `C6s`. -/
theorem claim6_backward_on_leaf_witness :
    0 < C6s.length ∧
    (backward ratPow 2 C6s 0 = some (mapAt C6s 0 fun n => { n with grad := 1 }, []) ∧
     gradOf (mapAt C6s 0 fun n => { n with grad := 1 }) 0 = 1 ∧
     dataOf (mapAt C6s 0 fun n => { n with grad := 1 }) 0 = dataOf C6s 0 ∧
     nodeAt (mapAt C6s 0 fun n => { n with grad := 1 }) 1 = nodeAt C6s 1) :=
  have h := claim6_backward_on_leaf ratPow 2 C6s 0 (by decide) (by decide) (by decide)
    (by norm_num)
  ⟨by decide, h.1, h.2.1, h.2.2.1, h.2.2.2 1 (by decide)⟩

/-- Witness for claim C7: a backward run on the single-leaf arena and the
constructor frame property on `add`. -/
theorem claim7_backward_mutates_only_gradients_witness :
    ([(⟨5, 1, none, none, [], none⟩ : VNode)] : State).length = C6s.length ∧
    dataOf [(⟨5, 1, none, none, [], none⟩ : VNode)] 0 = dataOf C6s 0 ∧
    nodeAt (add C6s 0 0) 0 = nodeAt C6s 0 := by
  have hb : backward ratPow 2 C6s 0 = some ([⟨5, 1, none, none, [], none⟩], []) := by decide
  exact ⟨(claim7_backward_mutates_only_gradients.1 ratPow 2 C6s 0 _ _ hb).1,
    ((claim7_backward_mutates_only_gradients.1 ratPow 2 C6s 0 _ _ hb).2 0).1,
    (claim7_backward_mutates_only_gradients.2 C6s 0 0 0 (by decide)).1⟩

/-- Witness for claim C8 on the single leaf arena with step `2`. -/
theorem claim8_adjust_postcondition_witness :
    0 < C6s.length ∧ dataOf (adjust C6s 0 2) 0 = dataOf C6s 0 + 2 * gradOf C6s 0 ∧
    gradOf (adjust C6s 0 2) 0 = gradOf C6s 0 ∧ nodeAt (adjust C6s 0 2) 1 = nodeAt C6s 1 :=
  have h := claim8_adjust_postcondition C6s 0 2 (by decide)
  ⟨by decide, h.1, h.2.1, h.2.2.2.2.2 1 (by decide)⟩

/-- Witness for the amended claim C9: labeled and unlabeled runs of the
two-leaf sum graph compute the same value in the first leaf. -/
theorem claim9_labels_preserve_values_witness :
    dataOf [(⟨2, 1, some "w", none, [], none⟩ : VNode), ⟨3, 1, none, none, [], none⟩,
            ⟨5, 1, none, some "+", [0, 1], some PTag.padd⟩] 0 =
    dataOf [(⟨2, 1, none, none, [], none⟩ : VNode), ⟨3, 1, none, none, [], none⟩,
            ⟨5, 1, none, some "+", [0, 1], some PTag.padd⟩] 0 := by
  have h1 : backward ratPow 10 (add_label (W5 2 3) 0 "w") 2 =
      some ([⟨2, 1, some "w", none, [], none⟩, ⟨3, 1, none, none, [], none⟩,
             ⟨5, 1, none, some "+", [0, 1], some PTag.padd⟩], [2]) := by decide
  have h2 : backward ratPow 10 (W5 2 3) 2 =
      some ([⟨2, 1, none, none, [], none⟩, ⟨3, 1, none, none, [], none⟩,
             ⟨5, 1, none, some "+", [0, 1], some PTag.padd⟩], [2]) := by decide
  exact claim9_labels_preserve_values ratPow 10 (W5 2 3) 0 "w" 2 _ _ _ _ h1 h2 0

/-- Witness for claim C10 on the single leaf arena. -/
theorem claim10_same_operand_aborts_witness :
    (1 : Nat) ≤ 5 ∧ backward ratPow 5 (add C6s 0 0) C6s.length = none ∧
      backward ratPow 5 (mul C6s 0 0) C6s.length = none :=
  have h := claim10_same_operand_aborts ratPow 5 C6s 0 (by norm_num)
  ⟨by norm_num, h.1, h.2⟩


end Picograd
